import Mathlib

/-!
Verification of the Abakada unified filter & search module
(`assets/js/search.js`).

The JavaScript module is shallowly embedded here:

* JS strings are modelled as `List Char` (abbreviated `Str`); `toLowerCase`
  is modelled character-wise by `Char.toLower` (ASCII case mapping),
  `includes` by the infix relation, `startsWith` by the prefix relation.
* The regex `\s` (whitespace) is modelled by the predicate `isJsWs`
  covering the usual JS whitespace characters.
* JS numbers appearing in the fuzzy-similarity computation are modelled
  exactly by rationals (`ℚ`); `Math.floor` is `Rat.floor`.
* `Array.prototype.sort` with the comparator `(a, b) => b.score - a.score`
  is modelled by the stable `List.mergeSort` with the corresponding
  boolean order `fun a b => b.score ≤ a.score`.
* The ES `Map` used for the search index is modelled as an insertion-ordered
  association list with overwrite-in-place `mapSet` (the semantics of
  `Map.set`) and `mapGet?` (the semantics of `Map.get`).
* A tool record is a structure carrying the fields read by the module;
  fields that may be absent in JS default to `''`/`[]` exactly where the
  source applies `|| ''` / `|| []`.
-/

abbrev Str := List Char

/-- `CONFIG.MAX_QUERY_LENGTH` -/
def MAX_QUERY_LENGTH : Nat := 100

/-- `CONFIG.MIN_SEARCH_LENGTH` -/
def MIN_SEARCH_LENGTH : Nat := 1

/-- `CONFIG.FUZZY_THRESHOLD` (0.6, modelled exactly as a rational) -/
def FUZZY_THRESHOLD : ℚ := 6 / 10

/-- The characters matched by the JS regex class `\s` (and trimmed by
`String.prototype.trim`). -/
def isJsWs (c : Char) : Bool :=
  c = ' ' || c = '\t' || c = '\n' || c = '\r' || c = '\x0b' || c = '\x0c' || c = '\xa0'

/-- The characters removed by `sanitizeQuery`, i.e. the regex class
`[\x00-\x1F\x7F]`. -/
def isCtrlChar (c : Char) : Bool :=
  c.toNat ≤ 0x1F || c.toNat = 0x7F

/-- `.replace(/[\x00-\x1F\x7F]/g, '')` -/
def removeCtrl (s : Str) : Str :=
  s.filter (fun c => !(isCtrlChar c))

/-- `.trim()` -/
def trimWs (s : Str) : Str :=
  ((s.dropWhile (fun c => isJsWs c)).reverse.dropWhile (fun c => isJsWs c)).reverse

/-- `.replace(/\s+/g, ' ')`: every maximal whitespace run becomes a single
space.  The boolean argument records whether the previous character was part
of a whitespace run already replaced. -/
def collapseWsAux : Bool → Str → Str
  | _, [] => []
  | prevWs, c :: rest =>
    if isJsWs c then
      if prevWs then collapseWsAux true rest else ' ' :: collapseWsAux true rest
    else c :: collapseWsAux false rest

def collapseWs (s : Str) : Str := collapseWsAux false s

/-- `.toLowerCase()`, character-wise ASCII case mapping. -/
def jsToLower (s : Str) : Str := s.map Char.toLower

/-- `sanitizeQuery(input)` (search.js lines 119-130).  `none` models `null`
and `undefined` (the `input == null` test); `some s` models any other value,
whose `String(input)` conversion is `s`. -/
def sanitizeQuery : Option Str → Str
  | none => []
  | some input =>
    let query := collapseWs (trimWs (removeCtrl input))
    let query := if MAX_QUERY_LENGTH < query.length then query.take MAX_QUERY_LENGTH else query
    jsToLower query

/-- `.split(/\s+/)` restricted to its use sites: the maximal non-whitespace
runs, in order.  (JS `split(/\s+/)` can additionally produce an empty first
or last token; both use sites in search.js immediately filter tokens by
length, so the empty tokens are dropped there and are dropped here at the
split itself.)  The accumulator carries the current run, reversed. -/
def splitWsAux : Str → Str → List Str
  | cur, [] => if cur = [] then [] else [cur.reverse]
  | cur, c :: rest =>
    if isJsWs c then
      if cur = [] then splitWsAux [] rest else cur.reverse :: splitWsAux [] rest
    else splitWsAux (c :: cur) rest

def splitWs (s : Str) : List Str := splitWsAux [] s

/-- A tool record, with the fields read by search.js. -/
structure Tool where
  id : Str
  name : Str
  tagline : Str
  description : Str
  license : Str
  tags : List Str
  platforms : List Str
  alternatives_to : List Str
  category : Str
deriving DecidableEq, Repr

/-- An entry of the search index (`buildSearchIndex`, lines 71-90). -/
structure IndexEntry where
  text : Str
  words : List Str
  alternatives : List Str
deriving DecidableEq, Repr

abbrev SearchIndex := List (Str × IndexEntry)

/-- `Map.set`: overwrite in place if the key is present (keeping insertion
order, as ES Maps do), otherwise append. -/
def mapSet : SearchIndex → Str → IndexEntry → SearchIndex
  | [], k, v => [(k, v)]
  | p :: rest, k, v => if p.1 = k then (k, v) :: rest else p :: mapSet rest k v

/-- `Map.get` (as an `Option`). -/
def mapGet? (m : SearchIndex) (k : Str) : Option IndexEntry :=
  (m.find? (fun p => p.1 == k)).map (fun p => p.2)

/-- The index entry built for one tool inside `buildSearchIndex`. -/
def buildEntry (tool : Tool) : IndexEntry :=
  let searchText := jsToLower (List.intercalate [' ']
    ([tool.name, tool.tagline, tool.description, tool.license]
      ++ tool.tags ++ tool.platforms ++ tool.alternatives_to))
  { text := searchText
    words := (splitWs searchText).filter (fun w => 1 < w.length)
    alternatives := tool.alternatives_to.map jsToLower }

/-- `buildSearchIndex()` (lines 71-90): clear the map, then `set` an entry
for every tool. -/
def buildSearchIndex (tools : List Tool) : SearchIndex :=
  tools.foldl (fun m tool => mapSet m tool.id (buildEntry tool)) []

/-- `levenshteinDistance` inner cells of one matrix row (lines 444-456):
walking the previous row (`diag :: rest`) and the string `a` together;
`left` is the freshly computed cell to the left, `rest.headD 0` the cell
above. -/
def levRowAux (bc : Char) : Nat → Str → List Nat → List Nat
  | _, [], _ => []
  | _, _ :: _, [] => []
  | left, ac :: atl, diag :: rest =>
    let up := rest.headD 0
    let cell := if bc = ac then diag
      else Nat.min (diag + 1) (Nat.min (left + 1) (up + 1))
    cell :: levRowAux bc cell atl rest

/-- The outer loop over `b` (row index `i`, each row starting with
`matrix[i][0] = i`). -/
def levRows (a : Str) : Str → Nat → List Nat → List Nat
  | [], _, prev => prev
  | bc :: btl, i, prev => levRows a btl (i + 1) (i :: levRowAux bc i a prev)

/-- `levenshteinDistance(a, b)` (lines 436-459): the Wagner-Fischer matrix,
kept one row at a time; `matrix[0] = [0, 1, ..., a.length]` and the result
is `matrix[b.length][a.length]`, the last cell of the last row. -/
def levenshteinDistance (a b : Str) : Nat :=
  if a.length = 0 then b.length
  else if b.length = 0 then a.length
  else (levRows a b 1 (List.range (a.length + 1))).getLastD 0

/-- The similarity computed for one indexed word inside `fuzzyMatch`
(lines 423-425), exactly in `ℚ`. -/
def similarity (query w : Str) : ℚ :=
  let distance := levenshteinDistance query (w.take (query.length + 2))
  let maxLen := max query.length w.length
  1 - (distance : ℚ) / (maxLen : ℚ)

/-- The loop of `fuzzyMatch` (lines 415-431), with its early `return 1`
when an indexed word starts with the query word. -/
def fuzzyLoop (query : Str) : List Str → ℚ → ℚ
  | [], best => best
  | w :: ws, best =>
    if w.length < 2 then fuzzyLoop query ws best
    else if query.isPrefixOf w then 1
    else
      let sim := similarity query w
      fuzzyLoop query ws (if best < sim then sim else best)

def fuzzyMatch (query : Str) (words : List Str) : ℚ :=
  fuzzyLoop query words 0

/-- The per-word score of `calculateMatchScore` (lines 380-403): the body of
the `for` loop computing `wordScore`. -/
def wordScore (lowerName lowerTagline : Str) (indexed : IndexEntry) (word : Str) : Nat :=
  if lowerName = word then 100
  else if word.isPrefixOf lowerName then 80
  else if word <:+: lowerName then 60
  else if word.isPrefixOf lowerTagline then 40
  else if word <:+: lowerTagline then 30
  else if indexed.alternatives.any (fun alt => decide (word <:+: alt)) then 70
  else if word <:+: indexed.text then 20
  else
    let fuzzyScore := fuzzyMatch word indexed.words
    if FUZZY_THRESHOLD < fuzzyScore then ((fuzzyScore * 15).floor).toNat else 0

/-- The accumulation loop of `calculateMatchScore`, with its early
`return 0` as soon as one word scores 0. -/
def scoreLoop (lowerName lowerTagline : Str) (indexed : IndexEntry) :
    List Str → Nat → Nat
  | [], totalScore => totalScore
  | word :: rest, totalScore =>
    let ws := wordScore lowerName lowerTagline indexed word
    if ws = 0 then 0 else scoreLoop lowerName lowerTagline indexed rest (totalScore + ws)

/-- `calculateMatchScore(tool, queryWords)` (lines 370-410). -/
def calculateMatchScore (idx : SearchIndex) (tool : Tool) (queryWords : List Str) : Nat :=
  if queryWords.length = 0 then 0
  else
    match mapGet? idx tool.id with
    | none => 0
    | some indexed =>
      scoreLoop (jsToLower tool.name) (jsToLower tool.tagline) indexed queryWords 0

/-- The unified filter state (the module-level `state` object, lines 19-25,
without the DOM-only `isInitialized` flag). -/
structure FilterState where
  query : Str
  category : Str
  platforms : List Str
  tags : List Str
deriving DecidableEq, Repr

/-- The string `'all'`. -/
def ALL : Str := ['a', 'l', 'l']

/-- The filtering stage of `performSearch` (lines 319-340): category filter
(skipped when the category is falsy or `'all'`), then platform filter
(OR semantics), then tag filter (OR semantics), each a plain array filter. -/
def filterStage (tools : List Tool) (st : FilterState) : List Tool :=
  let results := tools
  let results := if st.category ≠ [] ∧ st.category ≠ ALL then
      results.filter (fun tool => tool.category == st.category)
    else results
  let results := if 0 < st.platforms.length then
      results.filter (fun tool => st.platforms.any (fun p => tool.platforms.contains p))
    else results
  if 0 < st.tags.length then
    results.filter (fun tool => st.tags.any (fun t => tool.tags.contains t))
  else results

/-- The boolean order corresponding to the JS comparator
`(a, b) => b.score - a.score`. -/
def byScoreDesc (a b : Tool × Nat) : Bool := decide (b.2 ≤ a.2)

/-- The query stage of `performSearch` (lines 343-353): split the query,
score every surviving tool, keep positive scores, sort by score descending
(stably, as JS `sort` is), and drop the scores. -/
def queryStage (idx : SearchIndex) (st : FilterState) (results : List Tool) : List Tool :=
  if st.query ≠ [] ∧ MIN_SEARCH_LENGTH ≤ st.query.length then
    let queryWords := (splitWs st.query).filter (fun w => 0 < w.length)
    (((results.map (fun tool => (tool, calculateMatchScore idx tool queryWords))).filter
        (fun item => 0 < item.2)).mergeSort byScoreDesc).map (fun item => item.1)
  else results

/-- The module-level mutable state touched by `performSearch`. -/
structure ModuleState where
  tools : List Tool
  state : FilterState
  searchIndex : SearchIndex
  lastProcessedKey : Option Str
deriving DecidableEq, Repr

/-- The `searchKey` template string
`${query}|${category}|${platforms.join(',')}|${tags.join(',')}` (line 310). -/
def searchKeyOf (st : FilterState) : Str :=
  st.query ++ '|' :: st.category ++ '|' :: List.intercalate [','] st.platforms
    ++ '|' :: List.intercalate [','] st.tags

/-- The pure result computation of `performSearch` (lines 319-353), starting
from `tools.slice()` (a copy; immutable lists make the copy the identity). -/
def performSearchResults (s : ModuleState) : List Tool :=
  queryStage s.searchIndex s.state (filterStage s.tools s.state)

/-- One `performSearch()` call (lines 308-357) on the module state: compute
the search key, skip if unchanged (returning no results notification),
otherwise record the key and notify the computed results. -/
def performSearchStep (s : ModuleState) : ModuleState × Option (List Tool) :=
  let key := searchKeyOf s.state
  if s.lastProcessedKey = some key then (s, none)
  else ({ s with lastProcessedKey := some key }, some (performSearchResults s))

/-- `performSearch` including its `try/catch` (lines 359-363).  `thrown =
some e` models a JS exception raised by one of the steps of the `try` block
(the DOM helpers or the results callback); `keyWritten` records whether the
`lastProcessedKey` assignment on line 317 had already happened when the
exception was thrown.  The `catch` block notifies the full unfiltered
`tools` list. -/
def performSearchCaught (s : ModuleState) (thrown : Option Str) (keyWritten : Bool) :
    ModuleState × Option (List Tool) :=
  match thrown with
  | none => performSearchStep s
  | some _ =>
    ({ s with lastProcessedKey :=
        if keyWritten then some (searchKeyOf s.state) else s.lastProcessedKey },
     some s.tools)

/-- The shared shape of `togglePlatform` (lines 238-247) and `toggleTag`
(lines 261-270): `indexOf` + `splice(index, 1)` removes the first
occurrence, `push` appends. -/
def toggleItem (x : Str) (l : List Str) : List Str :=
  if x ∈ l then l.erase x else l ++ [x]

def togglePlatform (p : Str) (st : FilterState) : FilterState :=
  { st with platforms := toggleItem p st.platforms }

def toggleTag (t : Str) (st : FilterState) : FilterState :=
  { st with tags := toggleItem t st.tags }

/-- One element of the `toolsData` array passed to `init`: either a non-null
object with the `Tool` fields, or anything else (`null`, `undefined`, a
primitive) which the filter on lines 49-51 rejects. -/
inductive JSItem where
  | nonObject
  | obj (tool : Tool)
deriving DecidableEq, Repr

/-- JS truthiness of a string: non-empty. -/
def truthyStr (s : Str) : Bool := !s.isEmpty

/-- The tools list retained by `init` (lines 46-52): `none` models a
`toolsData` that is not an array. -/
def initTools : Option (List JSItem) → List Tool
  | none => []
  | some toolsData =>
    toolsData.filterMap (fun item =>
      match item with
      | .nonObject => none
      | .obj tool => if truthyStr tool.id && truthyStr tool.name then some tool else none)

/-- `init` (lines 39-65) restricted to its data effects: the retained tools
list and the search index built from it. -/
def initModule (toolsData : Option (List JSItem)) : List Tool × SearchIndex :=
  let tools := initTools toolsData
  (tools, buildSearchIndex tools)

/-- The per-word tier score exactly as the specification words it: 100 for
an exact name match, 80 for a name prefix, 60 for a name substring, 40 for
a tagline prefix, 30 for a tagline substring, 70 for a substring of an
`alternatives_to` entry, 20 for a substring of the full indexed text, and
`⌊15 · similarity⌋` when the best fuzzy similarity exceeds the 0.6
threshold; the first matching tier, in this order, wins. -/
def tierScore (tool : Tool) (indexed : IndexEntry) (word : Str) : Nat :=
  if jsToLower tool.name = word then 100
  else if word.isPrefixOf (jsToLower tool.name) then 80
  else if word <:+: jsToLower tool.name then 60
  else if word.isPrefixOf (jsToLower tool.tagline) then 40
  else if word <:+: jsToLower tool.tagline then 30
  else if ∃ alt ∈ indexed.alternatives, word <:+: alt then 70
  else if word <:+: indexed.text then 20
  else if FUZZY_THRESHOLD < fuzzyMatch word indexed.words then
    ((fuzzyMatch word indexed.words * 15).floor).toNat
  else 0

/-- Reference edit distance: the textbook head recursion.  It is proved
below to be the least number of single-character edits (`CanTransform`)
and to agree with the matrix implementation `levenshteinDistance`. -/
def ed : Str → Str → Nat
  | [], ys => ys.length
  | _ :: xs, [] => xs.length + 1
  | x :: xs, y :: ys =>
    if x = y then ed xs ys
    else 1 + Nat.min (ed xs ys) (Nat.min (ed (x :: xs) ys) (ed xs (y :: ys)))
termination_by xs ys => xs.length + ys.length

/-- A single-character edit somewhere in a string: insertion, deletion or
substitution of one character, at any position (the congruence constructor
`cons` moves the edit site to the right). -/
inductive EditStep : Str → Str → Prop
  | insert_head (c : Char) (l : Str) : EditStep l (c :: l)
  | delete_head (c : Char) (l : Str) : EditStep (c :: l) l
  | subst_head (c c' : Char) (l : Str) : EditStep (c :: l) (c' :: l)
  | cons (c : Char) {l l' : Str} : EditStep l l' → EditStep (c :: l) (c :: l')

/-- `CanTransform n a b`: `a` can be transformed into `b` by `n`
single-character insertions, deletions and substitutions. -/
inductive CanTransform : Nat → Str → Str → Prop
  | refl (l : Str) : CanTransform 0 l l
  | step {n : Nat} {a b c : Str} : EditStep a b → CanTransform n b c → CanTransform (n + 1) a c

/-- The row of reference distances corresponding to one matrix row: the
scanl accumulates the reversed prefixes of `a` on top of `acc`, and every
cell is the reference distance from `r`. -/
def rowForAux (r acc a : Str) : List Nat :=
  (List.scanl (fun s c => c :: s) acc a).map (ed r)

/-- A concrete tool used by the witnesses. -/
def toolW : Tool where
  id := ['t', '1']
  name := ['g', 'i', 'm', 'p']
  tagline := ['i', 'm', 'a', 'g', 'e', ' ', 'e', 'd', 'i', 't', 'o', 'r']
  description := []
  license := []
  tags := [['g', 'r', 'a', 'p', 'h', 'i', 'c', 's']]
  platforms := [['l', 'i', 'n', 'u', 'x']]
  alternatives_to := [['P', 'h', 'o', 't', 'o', 's', 'h', 'o', 'p']]
  category := ['d', 'e', 's', 'i', 'g', 'n']

/-- A concrete module state used by the witnesses. -/
def stateW : ModuleState where
  tools := [toolW]
  state := { query := ['g', 'i', 'm', 'p'], category := ALL, platforms := [], tags := [] }
  searchIndex := buildSearchIndex [toolW]
  lastProcessedKey := none

/-! ## C5: performSearch does not mutate tools, index or filter state -/

/-- C5: a `performSearch` call leaves the stored tools list, the search
index and the four filter-state fields (query, category, platforms, tags)
unchanged; only `lastProcessedKey` may change, and the computation works on
the (pure) copy `tools.slice()`. -/
theorem performSearch_preserves_state (s : ModuleState) :
    (performSearchStep s).1.tools = s.tools ∧
    (performSearchStep s).1.state.query = s.state.query ∧
    (performSearchStep s).1.state.category = s.state.category ∧
    (performSearchStep s).1.state.platforms = s.state.platforms ∧
    (performSearchStep s).1.state.tags = s.state.tags ∧
    (performSearchStep s).1.searchIndex = s.searchIndex := by
  unfold performSearchStep
  by_cases h : s.lastProcessedKey = some (searchKeyOf s.state) <;> simp [h]

/-! ## C6: the try/catch fallback of performSearch -/

/-- C6: when a step of `performSearch` throws, the exception is caught, the
results callback receives the full unfiltered tools list, and the module's
tools list and filter state are unchanged (whether or not the throw
happened after the `lastProcessedKey` assignment). -/
theorem performSearch_catch_fallback (s : ModuleState) (e : Str) (keyWritten : Bool) :
    (performSearchCaught s (some e) keyWritten).2 = some s.tools ∧
    (performSearchCaught s (some e) keyWritten).1.tools = s.tools ∧
    (performSearchCaught s (some e) keyWritten).1.state = s.state := by
  simp [performSearchCaught]

/-! ## C7: determinism of the search computation -/

/-- C7: the result list is a function of the tools list, the filter state
and the search index alone: two runs over equal inputs produce equal result
lists, element for element and in the same order (the sort is a fixed
stable merge sort, so ties are broken identically). -/
theorem performSearch_deterministic (s₁ s₂ : ModuleState)
    (htools : s₁.tools = s₂.tools) (hstate : s₁.state = s₂.state)
    (hidx : s₁.searchIndex = s₂.searchIndex) :
    performSearchResults s₁ = performSearchResults s₂ := by
  unfold performSearchResults
  rw [htools, hstate, hidx]

/-- Witness for C7: two module states that differ in `lastProcessedKey`. -/
theorem performSearch_deterministic_witness :
    performSearchResults stateW =
      performSearchResults { stateW with lastProcessedKey := some [] } :=
  performSearch_deterministic stateW { stateW with lastProcessedKey := some [] } rfl rfl rfl

/-! ## C9: double toggling -/

theorem toggleItem_of_not_mem {x : Str} {l : List Str} (h : x ∉ l) :
    toggleItem x l = l ++ [x] := by
  simp [toggleItem, h]

theorem toggleItem_of_mem {x : Str} {l : List Str} (h : x ∈ l) :
    toggleItem x l = l.erase x := by
  simp [toggleItem, h]

theorem toggleItem_twice_of_not_mem {x : Str} {l : List Str} (h : x ∉ l) :
    toggleItem x (toggleItem x l) = l := by
  rw [toggleItem_of_not_mem h, toggleItem_of_mem (by simp),
    List.erase_append_right _ h]
  simp

theorem perm_cons_erase_of_mem {x : Str} {l : List Str} (h : x ∈ l) :
    l.Perm (x :: l.erase x) := by
  induction l with
  | nil => cases h
  | cons b t ih =>
    by_cases hb : b = x
    · subst hb
      simp [List.erase_cons_head]
    · have hx : x ∈ t := by
        rcases List.mem_cons.mp h with h' | h'
        · exact absurd h'.symm hb
        · exact h'
      have herase : (b :: t).erase x = b :: t.erase x := by
        rw [List.erase_cons]
        simp [hb]
      rw [herase]
      exact (List.Perm.cons b (ih hx)).trans (List.Perm.swap x b _)

theorem toggleItem_twice_perm {x : Str} {l : List Str} (h : l.count x ≤ 1) :
    (toggleItem x (toggleItem x l)).Perm l := by
  by_cases hm : x ∈ l
  · have hc1 : l.count x = 1 :=
      Nat.le_antisymm h (List.count_pos_iff.mpr hm)
    have hnot : x ∉ l.erase x := by
      rw [← List.count_eq_zero, List.count_erase_self, hc1]
    rw [toggleItem_of_mem hm, toggleItem_of_not_mem hnot]
    exact (List.perm_append_singleton x (l.erase x)).trans
      (perm_cons_erase_of_mem hm).symm
  · rw [toggleItem_twice_of_not_mem hm]

/-- C9 counterexample: with `platforms = ["a", "b"]`, toggling `"a"` twice
yields `["b", "a"]`, not the original list — the double toggle is not the
identity on the list. -/
theorem togglePlatform_twice_not_id :
    (togglePlatform ['a'] (togglePlatform ['a']
        { query := [], category := ALL, platforms := [['a'], ['b']], tags := [] })).platforms
      = [['b'], ['a']] ∧
    [['b'], ['a']] ≠ [['a'], ['b']] := by
  constructor
  · decide
  · decide

/-- C9 (amended): a single `togglePlatform p` (resp. `toggleTag t`) appends
the value exactly when it was absent and removes its first occurrence when
present; toggling twice restores the list exactly when the value was
absent, and restores it up to permutation (the value moves to the end)
whenever the value occurred at most once beforehand. -/
theorem toggle_twice_spec (st : FilterState) (p t : Str) :
    (p ∉ st.platforms → (togglePlatform p st).platforms = st.platforms ++ [p]) ∧
    (p ∈ st.platforms → (togglePlatform p st).platforms = st.platforms.erase p) ∧
    (p ∉ st.platforms →
      (togglePlatform p (togglePlatform p st)).platforms = st.platforms) ∧
    (st.platforms.count p ≤ 1 →
      ((togglePlatform p (togglePlatform p st)).platforms).Perm st.platforms) ∧
    (t ∉ st.tags → (toggleTag t st).tags = st.tags ++ [t]) ∧
    (t ∈ st.tags → (toggleTag t st).tags = st.tags.erase t) ∧
    (t ∉ st.tags → (toggleTag t (toggleTag t st)).tags = st.tags) ∧
    (st.tags.count t ≤ 1 → ((toggleTag t (toggleTag t st)).tags).Perm st.tags) := by
  refine ⟨fun h => ?_, fun h => ?_, fun h => ?_, fun h => ?_,
    fun h => ?_, fun h => ?_, fun h => ?_, fun h => ?_⟩ <;>
    simp only [togglePlatform, toggleTag]
  · exact toggleItem_of_not_mem h
  · exact toggleItem_of_mem h
  · exact toggleItem_twice_of_not_mem h
  · exact toggleItem_twice_perm h
  · exact toggleItem_of_not_mem h
  · exact toggleItem_of_mem h
  · exact toggleItem_twice_of_not_mem h
  · exact toggleItem_twice_perm h

/-- Witness for C9 (amended), at `platforms = tags = ["a"]` toggling
`"b"`. -/
theorem toggle_twice_spec_witness :
    (togglePlatform ['b'] { query := [], category := ALL, platforms := [['a']], tags := [['a']] }).platforms
      = [['a']] ++ [['b']] ∧
    (toggleTag ['b'] (toggleTag ['b']
        { query := [], category := ALL, platforms := [['a']], tags := [['a']] })).tags = [['a']] :=
  ⟨(toggle_twice_spec _ ['b'] ['b']).1 (by decide),
   (toggle_twice_spec _ ['b'] ['b']).2.2.2.2.2.2.1 (by decide)⟩

/-! ## C4: the filtering stage -/

theorem mem_catFilter (l : List Tool) (st : FilterState) (tool : Tool) :
    tool ∈ (if st.category ≠ [] ∧ st.category ≠ ALL then
        l.filter (fun tool => tool.category == st.category) else l) ↔
      tool ∈ l ∧ (st.category = [] ∨ st.category = ALL ∨ tool.category = st.category) := by
  by_cases h : st.category ≠ [] ∧ st.category ≠ ALL
  · rw [if_pos h]
    simp only [List.mem_filter, beq_iff_eq]
    constructor
    · rintro ⟨hm, he⟩
      exact ⟨hm, Or.inr (Or.inr he)⟩
    · rintro ⟨hm, hc | hc | hc⟩
      · exact absurd hc h.1
      · exact absurd hc h.2
      · exact ⟨hm, hc⟩
  · rw [if_neg h]
    push_neg at h
    constructor
    · intro hm
      refine ⟨hm, ?_⟩
      by_cases hc : st.category = []
      · exact Or.inl hc
      · exact Or.inr (Or.inl (h hc))
    · exact fun h' => h'.1

theorem mem_platFilter (l : List Tool) (st : FilterState) (tool : Tool) :
    tool ∈ (if 0 < st.platforms.length then
        l.filter (fun tool => st.platforms.any (fun p => tool.platforms.contains p)) else l) ↔
      tool ∈ l ∧ (st.platforms = [] ∨ ∃ p ∈ st.platforms, p ∈ tool.platforms) := by
  by_cases h : 0 < st.platforms.length
  · have hne : st.platforms ≠ [] := by
      intro he
      rw [he] at h
      simp at h
    rw [if_pos h]
    simp only [List.mem_filter, List.any_eq_true, List.contains, List.elem_eq_mem,
      decide_eq_true_eq]
    constructor
    · rintro ⟨hm, hp⟩
      exact ⟨hm, Or.inr hp⟩
    · rintro ⟨hm, hp | hp⟩
      · exact absurd hp hne
      · exact ⟨hm, hp⟩
  · rw [if_neg h]
    have hnil : st.platforms = [] := by
      cases hh : st.platforms with
      | nil => rfl
      | cons a t =>
        rw [hh] at h
        simp at h
    exact ⟨fun hm => ⟨hm, Or.inl hnil⟩, fun h' => h'.1⟩

theorem mem_tagFilter (l : List Tool) (st : FilterState) (tool : Tool) :
    tool ∈ (if 0 < st.tags.length then
        l.filter (fun tool => st.tags.any (fun t => tool.tags.contains t)) else l) ↔
      tool ∈ l ∧ (st.tags = [] ∨ ∃ t ∈ st.tags, t ∈ tool.tags) := by
  by_cases h : 0 < st.tags.length
  · have hne : st.tags ≠ [] := by
      intro he
      rw [he] at h
      simp at h
    rw [if_pos h]
    simp only [List.mem_filter, List.any_eq_true, List.contains, List.elem_eq_mem,
      decide_eq_true_eq]
    constructor
    · rintro ⟨hm, hp⟩
      exact ⟨hm, Or.inr hp⟩
    · rintro ⟨hm, hp | hp⟩
      · exact absurd hp hne
      · exact ⟨hm, hp⟩
  · rw [if_neg h]
    have hnil : st.tags = [] := by
      cases hh : st.tags with
      | nil => rfl
      | cons a t =>
        rw [hh] at h
        simp at h
    exact ⟨fun hm => ⟨hm, Or.inl hnil⟩, fun h' => h'.1⟩

/-- C4: a tool survives the filtering stage of `performSearch` iff its
category matches (or the category filter is `'all'`/empty), it carries one
of the selected platforms (or none are selected), and it carries one of the
selected tags (or none are selected); moreover the stage is a chain of
plain array filters, so it yields a sublist of the input in order. -/
theorem filterStage_spec (tools : List Tool) (st : FilterState) (tool : Tool) :
    (tool ∈ filterStage tools st ↔
      tool ∈ tools ∧
      (st.category = [] ∨ st.category = ALL ∨ tool.category = st.category) ∧
      (st.platforms = [] ∨ ∃ p ∈ st.platforms, p ∈ tool.platforms) ∧
      (st.tags = [] ∨ ∃ t ∈ st.tags, t ∈ tool.tags)) ∧
    (filterStage tools st).Sublist tools := by
  constructor
  · simp only [filterStage]
    rw [mem_tagFilter, mem_platFilter, mem_catFilter]
    tauto
  · simp only [filterStage]
    split_ifs <;>
      first
        | exact List.Sublist.refl _
        | exact List.filter_sublist _
        | exact (List.filter_sublist _).trans (List.filter_sublist _)
        | exact (List.filter_sublist _).trans
            ((List.filter_sublist _).trans (List.filter_sublist _))

/-- Witness for C4: the filter stage on a concrete one-tool list. -/
theorem filterStage_spec_witness :
    (filterStage [toolW]
      { query := [], category := ALL, platforms := [], tags := [] }).Sublist [toolW] :=
  (filterStage_spec [toolW] { query := [], category := ALL, platforms := [], tags := [] }
    toolW).2

/-! ## C8: the init invariant -/

theorem mapGet?_mapSet_self (m : SearchIndex) (k : Str) (v : IndexEntry) :
    mapGet? (mapSet m k v) k = some v := by
  induction m with
  | nil => simp [mapSet, mapGet?]
  | cons p rest ih =>
    by_cases h : p.1 = k
    · simp [mapSet, h, mapGet?]
    · rw [mapSet, if_neg h]
      show mapGet? (p :: mapSet rest k v) k = some v
      rw [mapGet?, List.find?_cons_of_neg _ (by simp [h]), ← mapGet?]
      exact ih

theorem mapGet?_mapSet_ne {k' k : Str} (m : SearchIndex) (v : IndexEntry) (he : k' ≠ k) :
    mapGet? (mapSet m k v) k' = mapGet? m k' := by
  induction m with
  | nil =>
    simp [mapSet, mapGet?, List.find?_cons_of_neg, Ne.symm he]
  | cons p rest ih =>
    by_cases hp : p.1 = k
    · rw [mapSet, if_pos hp, mapGet?, mapGet?,
        List.find?_cons_of_neg _ (by simp [Ne.symm he]),
        List.find?_cons_of_neg _ (by simp [hp, Ne.symm he])]
    · rw [mapSet, if_neg hp]
      by_cases hk : p.1 = k'
      · rw [mapGet?, mapGet?, List.find?_cons_of_pos _ (by simp [hk]),
          List.find?_cons_of_pos _ (by simp [hk])]
      · rw [mapGet?, mapGet?, List.find?_cons_of_neg _ (by simp [hk]),
          List.find?_cons_of_neg _ (by simp [hk])]
        exact ih

theorem buildSearchIndex_isSome {t : Tool} (tools : List Tool) (h : t ∈ tools) :
    (mapGet? (buildSearchIndex tools) t.id).isSome = true := by
  suffices H : ∀ m : SearchIndex,
      t ∈ tools ∨ (mapGet? m t.id).isSome = true →
      (mapGet? (tools.foldl (fun m tool => mapSet m tool.id (buildEntry tool)) m) t.id).isSome
        = true by
    exact H [] (Or.inl h)
  clear h
  induction tools with
  | nil =>
    rintro m (h | h)
    · cases h
    · exact h
  | cons a rest ih =>
    rintro m (h | h) <;> rw [List.foldl_cons]
    · rcases List.mem_cons.mp h with rfl | hmem
      · refine ih _ (Or.inr ?_)
        rw [mapGet?_mapSet_self]
        rfl
      · exact ih _ (Or.inl hmem)
    · refine ih _ (Or.inr ?_)
      by_cases he : t.id = a.id
      · rw [he, mapGet?_mapSet_self]
        rfl
      · rw [mapGet?_mapSet_ne _ _ he]
        exact h

/-- C8: after `init`, every retained tool has truthy (non-empty) `id` and
`name` fields and an entry in the search index; a non-array `toolsData`
leaves the internal list empty (the error path of `init` also leaves it
empty, for which the invariant is vacuous). -/
theorem init_invariant :
    (∀ toolsData tool, tool ∈ (initModule toolsData).1 →
      tool.id ≠ [] ∧ tool.name ≠ [] ∧
        (mapGet? (initModule toolsData).2 tool.id).isSome = true) ∧
    (initModule none).1 = [] := by
  constructor
  · intro toolsData tool hmem
    have hmem' : tool ∈ initTools toolsData := hmem
    have hids : tool.id ≠ [] ∧ tool.name ≠ [] := by
      cases toolsData with
      | none => cases hmem'
      | some items =>
        simp only [initTools, List.mem_filterMap] at hmem'
        obtain ⟨item, _, hf⟩ := hmem'
        cases item with
        | nonObject => cases hf
        | obj t' =>
          have hf' : (if (truthyStr t'.id && truthyStr t'.name) = true
              then some t' else none) = some tool := hf
          by_cases hc : (truthyStr t'.id && truthyStr t'.name) = true
          · rw [if_pos hc] at hf'
            cases hf'
            rw [Bool.and_eq_true] at hc
            constructor
            · intro hnil
              have := hc.1
              rw [truthyStr, hnil] at this
              simp at this
            · intro hnil
              have := hc.2
              rw [truthyStr, hnil] at this
              simp at this
          · rw [if_neg hc] at hf'
            cases hf'
    exact ⟨hids.1, hids.2, buildSearchIndex_isSome _ hmem'⟩
  · rfl

/-- Witness for C8: a one-element `toolsData` array. -/
theorem init_invariant_witness :
    toolW.id ≠ [] ∧ toolW.name ≠ [] ∧
      (mapGet? (initModule (some [JSItem.obj toolW])).2 toolW.id).isSome = true :=
  init_invariant.1 (some [JSItem.obj toolW]) toolW (by decide)

/-! ## C10: sanitizeQuery -/

theorem char_toNat_ofNat_valid {n : Nat} (h : n < 55296) : (Char.ofNat n).toNat = n := by
  rw [Char.ofNat, dif_pos (Or.inl h)]
  rfl

theorem toLower_eq_of_not_upper {c : Char} (h : ¬(65 ≤ c.toNat ∧ c.toNat ≤ 90)) :
    Char.toLower c = c := by
  rw [Char.toLower, if_neg]
  intro h'
  exact h ⟨h'.1, h'.2⟩

theorem toLower_toNat_of_upper {c : Char} (h : 65 ≤ c.toNat ∧ c.toNat ≤ 90) :
    (Char.toLower c).toNat = c.toNat + 32 := by
  rw [Char.toLower, if_pos ⟨h.1, h.2⟩]
  exact char_toNat_ofNat_valid (by omega)

theorem char_eq_of_toNat {c d : Char} (h : c.toNat = d.toNat) : c = d := by
  rw [← Char.ofNat_toNat c, ← Char.ofNat_toNat d, h]

theorem toLower_idem (c : Char) : Char.toLower (Char.toLower c) = Char.toLower c := by
  by_cases h : 65 ≤ c.toNat ∧ c.toNat ≤ 90
  · have h2 : (Char.toLower c).toNat = c.toNat + 32 := toLower_toNat_of_upper h
    apply toLower_eq_of_not_upper
    omega
  · rw [toLower_eq_of_not_upper h]
    exact toLower_eq_of_not_upper h

theorem isJsWs_toNat {c : Char} (h : isJsWs c = true) :
    c.toNat = 32 ∨ c.toNat = 9 ∨ c.toNat = 10 ∨ c.toNat = 13 ∨
      c.toNat = 11 ∨ c.toNat = 12 ∨ c.toNat = 160 := by
  simp only [isJsWs, Bool.or_eq_true, decide_eq_true_eq] at h
  rcases h with ((((((h | h) | h) | h) | h) | h) | h) <;> subst h <;> simp

theorem isJsWs_of_toLower {c : Char} (h : isJsWs (Char.toLower c) = true) :
    Char.toLower c = c := by
  by_cases hu : 65 ≤ c.toNat ∧ c.toNat ≤ 90
  · exfalso
    have h2 := toLower_toNat_of_upper hu
    have h3 := isJsWs_toNat h
    omega
  · exact toLower_eq_of_not_upper hu

theorem not_ctrl_toLower {c : Char} (h : isCtrlChar c = false) :
    isCtrlChar (Char.toLower c) = false := by
  by_cases hu : 65 ≤ c.toNat ∧ c.toNat ≤ 90
  · have h2 := toLower_toNat_of_upper hu
    simp only [isCtrlChar, Bool.or_eq_false_iff, decide_eq_false_iff_not] at h ⊢
    omega
  · rw [toLower_eq_of_not_upper hu]
    exact h

theorem mem_collapseWsAux {c : Char} :
    ∀ (b : Bool) (s : Str), c ∈ collapseWsAux b s → c = ' ' ∨ c ∈ s := by
  intro b s
  induction s generalizing b with
  | nil => intro h; cases h
  | cons a rest ih =>
    intro h
    rw [collapseWsAux] at h
    by_cases hw : isJsWs a = true
    · rw [if_pos hw] at h
      cases b with
      | true =>
        rw [if_pos rfl] at h
        rcases ih true h with h' | h'
        · exact Or.inl h'
        · exact Or.inr (List.mem_cons_of_mem a h')
      | false =>
        rw [if_neg (by simp)] at h
        rcases List.mem_cons.mp h with rfl | h'
        · exact Or.inl rfl
        · rcases ih true h' with h'' | h''
          · exact Or.inl h''
          · exact Or.inr (List.mem_cons_of_mem a h'')
    · rw [if_neg hw] at h
      rcases List.mem_cons.mp h with rfl | h'
      · exact Or.inr (List.mem_cons_self c rest)
      · rcases ih false h' with h'' | h''
        · exact Or.inl h''
        · exact Or.inr (List.mem_cons_of_mem a h'')

theorem ws_mem_collapseWsAux {c : Char} (hwc : isJsWs c = true) :
    ∀ (b : Bool) (s : Str), c ∈ collapseWsAux b s → c = ' ' := by
  intro b s
  induction s generalizing b with
  | nil => intro h; cases h
  | cons a rest ih =>
    intro h
    rw [collapseWsAux] at h
    by_cases hw : isJsWs a = true
    · rw [if_pos hw] at h
      cases b with
      | true => exact ih true h
      | false =>
        rw [if_neg (by simp)] at h
        rcases List.mem_cons.mp h with rfl | h'
        · rfl
        · exact ih true h'
    · rw [if_neg hw] at h
      rcases List.mem_cons.mp h with rfl | h'
      · exact absurd hwc (by simp [hw])
      · exact ih false h'

theorem head_collapseWsAux_true :
    ∀ (s : Str) (c : Char), (collapseWsAux true s).head? = some c → isJsWs c = false := by
  intro s
  induction s with
  | nil => intro c h; cases h
  | cons a rest ih =>
    intro c h
    rw [collapseWsAux] at h
    by_cases hw : isJsWs a = true
    · rw [if_pos hw, if_pos rfl] at h
      exact ih c h
    · rw [if_neg hw] at h
      cases h
      exact Bool.eq_false_iff.mpr hw

theorem chain_collapseWsAux :
    ∀ (s : Str) (b : Bool),
      List.Chain' (fun c d => ¬(isJsWs c = true ∧ isJsWs d = true)) (collapseWsAux b s) := by
  intro s
  induction s with
  | nil => intro b; rw [collapseWsAux]; exact List.chain'_nil
  | cons a rest ih =>
    intro b
    rw [collapseWsAux]
    by_cases hw : isJsWs a = true
    · rw [if_pos hw]
      cases b with
      | true =>
        rw [if_pos rfl]
        exact ih true
      | false =>
        rw [if_neg (by simp)]
        rw [List.chain'_cons']
        refine ⟨?_, ih true⟩
        intro y hy hcontra
        exact absurd hcontra.2 (by simp [head_collapseWsAux_true rest y hy])
    · rw [if_neg hw]
      rw [List.chain'_cons']
      refine ⟨?_, ih false⟩
      intro y _ hcontra
      exact absurd hcontra.1 (by simp [hw])

theorem mem_trimWs {c : Char} {s : Str} (h : c ∈ trimWs s) : c ∈ s := by
  rw [trimWs, List.mem_reverse] at h
  have h1 := List.Sublist.mem h (List.dropWhile_sublist _)
  rw [List.mem_reverse] at h1
  exact List.Sublist.mem h1 (List.dropWhile_sublist _)

/-- C10: for every input (with `none` modelling `null`/`undefined`), the
sanitized query has length at most `MAX_QUERY_LENGTH`, every character is
fixed by lowercasing, no character is a control character
(`0x00`-`0x1F`, `0x7F`), every whitespace character is a plain space and no
two adjacent characters are both whitespace (runs collapsed), and
`null`/`undefined` map to the empty string. -/
theorem sanitizeQuery_spec (input : Option Str) :
    (sanitizeQuery input).length ≤ MAX_QUERY_LENGTH ∧
    (∀ c ∈ sanitizeQuery input, Char.toLower c = c) ∧
    (∀ c ∈ sanitizeQuery input, isCtrlChar c = false) ∧
    (∀ c ∈ sanitizeQuery input, isJsWs c = true → c = ' ') ∧
    List.Chain' (fun c d => ¬(isJsWs c = true ∧ isJsWs d = true)) (sanitizeQuery input) ∧
    sanitizeQuery none = [] := by
  cases input with
  | none =>
    refine ⟨by simp [sanitizeQuery, MAX_QUERY_LENGTH], ?_, ?_, ?_, ?_, rfl⟩ <;>
      simp [sanitizeQuery]
  | some s =>
    have hval : sanitizeQuery (some s) =
        jsToLower (if MAX_QUERY_LENGTH < (collapseWs (trimWs (removeCtrl s))).length
          then (collapseWs (trimWs (removeCtrl s))).take MAX_QUERY_LENGTH
          else collapseWs (trimWs (removeCtrl s))) := rfl
    have hq1_sub : ∀ c, c ∈ (if MAX_QUERY_LENGTH < (collapseWs (trimWs (removeCtrl s))).length
        then (collapseWs (trimWs (removeCtrl s))).take MAX_QUERY_LENGTH
        else collapseWs (trimWs (removeCtrl s))) → c ∈ collapseWs (trimWs (removeCtrl s)) := by
      intro c hc
      by_cases hl : MAX_QUERY_LENGTH < (collapseWs (trimWs (removeCtrl s))).length
      · rw [if_pos hl] at hc
        exact List.Sublist.mem hc (List.take_sublist _ _)
      · rw [if_neg hl] at hc
        exact hc
    have hq0_ctrl : ∀ c, c ∈ collapseWs (trimWs (removeCtrl s)) → isCtrlChar c = false := by
      intro c hc
      rcases mem_collapseWsAux false _ hc with rfl | hc'
      · decide
      · have hc'' := mem_trimWs hc'
        rw [removeCtrl, List.mem_filter] at hc''
        simpa using hc''.2
    have hq0_ws : ∀ c, c ∈ collapseWs (trimWs (removeCtrl s)) → isJsWs c = true → c = ' ' :=
      fun c hc hw => ws_mem_collapseWsAux hw false _ hc
    rw [hval]
    refine ⟨?_, ?_, ?_, ?_, ?_, rfl⟩
    · rw [jsToLower, List.length_map]
      by_cases hl : MAX_QUERY_LENGTH < (collapseWs (trimWs (removeCtrl s))).length
      · rw [if_pos hl, List.length_take]
        omega
      · rw [if_neg hl]
        omega
    · intro c hc
      rw [jsToLower, List.mem_map] at hc
      obtain ⟨d, _, rfl⟩ := hc
      exact toLower_idem d
    · intro c hc
      rw [jsToLower, List.mem_map] at hc
      obtain ⟨d, hd, rfl⟩ := hc
      exact not_ctrl_toLower (hq0_ctrl d (hq1_sub d hd))
    · intro c hc hw
      rw [jsToLower, List.mem_map] at hc
      obtain ⟨d, hd, rfl⟩ := hc
      have heq := isJsWs_of_toLower hw
      rw [heq] at hw ⊢
      exact hq0_ws d (hq1_sub d hd) hw
    · rw [jsToLower]
      rw [List.chain'_map]
      have hchain : List.Chain' (fun c d => ¬(isJsWs c = true ∧ isJsWs d = true))
          (if MAX_QUERY_LENGTH < (collapseWs (trimWs (removeCtrl s))).length
            then (collapseWs (trimWs (removeCtrl s))).take MAX_QUERY_LENGTH
            else collapseWs (trimWs (removeCtrl s))) := by
        by_cases hl : MAX_QUERY_LENGTH < (collapseWs (trimWs (removeCtrl s))).length
        · rw [if_pos hl]
          exact (chain_collapseWsAux _ false).take _
        · rw [if_neg hl]
          exact chain_collapseWsAux _ false
      refine hchain.imp ?_
      intro a b hab hcontra
      rcases hcontra with ⟨ha, hb⟩
      have ha' := isJsWs_of_toLower ha
      have hb' := isJsWs_of_toLower hb
      rw [ha'] at ha
      rw [hb'] at hb
      exact hab ⟨ha, hb⟩

/-- Witness for C10 at the concrete input `" A"`. -/
theorem sanitizeQuery_spec_witness :
    (sanitizeQuery (some [' ', 'A'])).length ≤ MAX_QUERY_LENGTH ∧
      Char.toLower 'a' = 'a' :=
  ⟨(sanitizeQuery_spec (some [' ', 'A'])).1,
   (sanitizeQuery_spec (some [' ', 'A'])).2.1 'a' (by decide)⟩

/-! ## C2: calculateMatchScore -/

theorem wordScore_eq_tierScore (tool : Tool) (indexed : IndexEntry) (word : Str) :
    wordScore (jsToLower tool.name) (jsToLower tool.tagline) indexed word =
      tierScore tool indexed word := by
  simp only [wordScore, tierScore, List.any_eq_true, decide_eq_true_eq]

theorem scoreLoop_spec (ln lt : Str) (indexed : IndexEntry) :
    ∀ (ws : List Str) (acc : Nat),
      scoreLoop ln lt indexed ws acc =
        if ∀ w ∈ ws, 0 < wordScore ln lt indexed w
        then acc + (ws.map (wordScore ln lt indexed)).sum
        else 0 := by
  intro ws
  induction ws with
  | nil =>
    intro acc
    simp [scoreLoop]
  | cons w rest ih =>
    intro acc
    simp only [scoreLoop]
    by_cases hw : wordScore ln lt indexed w = 0
    · rw [if_pos hw, if_neg]
      push_neg
      exact ⟨w, List.mem_cons_self w rest, by omega⟩
    · rw [if_neg hw, ih]
      by_cases hall : ∀ x ∈ rest, 0 < wordScore ln lt indexed x
      · rw [if_pos hall, if_pos]
        · rw [List.map_cons, List.sum_cons]
          omega
        · intro x hx
          rcases List.mem_cons.mp hx with rfl | hx'
          · omega
          · exact hall x hx'
      · rw [if_neg hall, if_neg]
        intro hcontra
        exact hall fun x hx => hcontra x (List.mem_cons_of_mem w hx)

/-- C2: for a tool present in the search index and a non-empty query-word
list, `calculateMatchScore` returns the sum over the query words of the
per-word tier score (100 exact name, 80 name prefix, 60 name substring,
40 tagline prefix, 30 tagline substring, 70 alternatives substring, 20
indexed-text substring, `⌊15·similarity⌋` above the 0.6 fuzzy threshold),
and 0 as soon as any single word scores 0. -/
theorem calculateMatchScore_spec (idx : SearchIndex) (tool : Tool) (indexed : IndexEntry)
    (queryWords : List Str) (hidx : mapGet? idx tool.id = some indexed)
    (hne : queryWords ≠ []) :
    calculateMatchScore idx tool queryWords =
      if ∀ w ∈ queryWords, 0 < tierScore tool indexed w
      then (queryWords.map (tierScore tool indexed)).sum
      else 0 := by
  rw [calculateMatchScore, if_neg (by simp [hne]), hidx]
  show scoreLoop (jsToLower tool.name) (jsToLower tool.tagline) indexed queryWords 0 = _
  have hfun : wordScore (jsToLower tool.name) (jsToLower tool.tagline) indexed
      = tierScore tool indexed := funext fun w => wordScore_eq_tierScore tool indexed w
  rw [scoreLoop_spec, hfun]
  simp only [Nat.zero_add]

/-- Witness for C2 at the concrete tool `toolW` and query `["gimp"]`. -/
theorem calculateMatchScore_spec_witness :
    calculateMatchScore (buildSearchIndex [toolW]) toolW [['g', 'i', 'm', 'p']] =
      if ∀ w ∈ [['g', 'i', 'm', 'p']], 0 < tierScore toolW (buildEntry toolW) w
      then ([['g', 'i', 'm', 'p']].map (tierScore toolW (buildEntry toolW))).sum
      else 0 :=
  calculateMatchScore_spec _ _ _ _ (by decide) (by decide)

/-! ## C1: the query stage of performSearch -/

theorem byScoreDesc_trans : ∀ a b c : Tool × Nat,
    byScoreDesc a b = true → byScoreDesc b c = true → byScoreDesc a c = true := by
  intro a b c hab hbc
  simp only [byScoreDesc, decide_eq_true_eq] at hab hbc ⊢
  omega

theorem byScoreDesc_total : ∀ a b : Tool × Nat,
    (byScoreDesc a b || byScoreDesc b a) = true := by
  intro a b
  simp only [byScoreDesc, Bool.or_eq_true, decide_eq_true_eq]
  omega

/-- C1: with a non-empty (sanitized) query, the result list is a
permutation of exactly the filter-surviving tools whose match score against
the whitespace-split query words is strictly positive, and it is arranged
in non-increasing order of that score. -/
theorem performSearch_query_spec (s : ModuleState) (hq : s.state.query ≠ []) :
    (performSearchResults s).Perm
      ((filterStage s.tools s.state).filter (fun tool =>
        0 < calculateMatchScore s.searchIndex tool
          ((splitWs s.state.query).filter (fun w => 0 < w.length)))) ∧
    (performSearchResults s).Pairwise (fun t u =>
      calculateMatchScore s.searchIndex u
          ((splitWs s.state.query).filter (fun w => 0 < w.length)) ≤
        calculateMatchScore s.searchIndex t
          ((splitWs s.state.query).filter (fun w => 0 < w.length))) := by
  have hcond : s.state.query ≠ [] ∧ MIN_SEARCH_LENGTH ≤ s.state.query.length := by
    refine ⟨hq, ?_⟩
    rw [MIN_SEARCH_LENGTH]
    exact Nat.succ_le_of_lt (List.length_pos.mpr hq)
  have hres : performSearchResults s =
      ((((filterStage s.tools s.state).map (fun tool =>
          (tool, calculateMatchScore s.searchIndex tool
            ((splitWs s.state.query).filter (fun w => 0 < w.length))))).filter
        (fun item => 0 < item.2)).mergeSort byScoreDesc).map (fun item => item.1) := by
    rw [performSearchResults, queryStage, if_pos hcond]
  have hperm1 := List.mergeSort_perm
    ((((filterStage s.tools s.state).map (fun tool =>
        (tool, calculateMatchScore s.searchIndex tool
          ((splitWs s.state.query).filter (fun w => 0 < w.length))))).filter
      (fun item => 0 < item.2))) byScoreDesc
  have hkept : (((filterStage s.tools s.state).map (fun tool =>
      (tool, calculateMatchScore s.searchIndex tool
        ((splitWs s.state.query).filter (fun w => 0 < w.length))))).filter
        (fun item => 0 < item.2)) =
      ((filterStage s.tools s.state).filter (fun tool =>
        0 < calculateMatchScore s.searchIndex tool
          ((splitWs s.state.query).filter (fun w => 0 < w.length)))).map (fun tool =>
        (tool, calculateMatchScore s.searchIndex tool
          ((splitWs s.state.query).filter (fun w => 0 < w.length)))) := by
    rw [List.filter_map]
    rfl
  constructor
  · rw [hres]
    refine (hperm1.map _).trans ?_
    rw [hkept, List.map_map]
    have hid : ((fun item : Tool × Nat => item.1) ∘ (fun tool =>
        (tool, calculateMatchScore s.searchIndex tool
          ((splitWs s.state.query).filter (fun w => 0 < w.length))))) = id := rfl
    rw [hid, List.map_id]
  · rw [hres]
    have hsorted := List.sorted_mergeSort byScoreDesc_trans byScoreDesc_total
      ((((filterStage s.tools s.state).map (fun tool =>
          (tool, calculateMatchScore s.searchIndex tool
            ((splitWs s.state.query).filter (fun w => 0 < w.length))))).filter
        (fun item => 0 < item.2)))
    have hmem : ∀ p ∈ (((filterStage s.tools s.state).map (fun tool =>
        (tool, calculateMatchScore s.searchIndex tool
          ((splitWs s.state.query).filter (fun w => 0 < w.length))))).filter
          (fun item => 0 < item.2)).mergeSort byScoreDesc,
        p.2 = calculateMatchScore s.searchIndex p.1
          ((splitWs s.state.query).filter (fun w => 0 < w.length)) := by
      intro p hp
      have hp1 := hperm1.mem_iff.mp hp
      have hp2 := (List.mem_filter.mp hp1).1
      obtain ⟨tool, _, rfl⟩ := List.mem_map.mp hp2
      rfl
    rw [List.pairwise_map]
    refine hsorted.imp_of_mem ?_
    intro a b ha hb hab
    have ha2 := hmem a ha
    have hb2 := hmem b hb
    simp only [byScoreDesc, decide_eq_true_eq] at hab
    rw [← ha2, ← hb2]
    exact hab

/-- Witness for C1 at the concrete module state `stateW` (query "gimp"). -/
theorem performSearch_query_spec_witness :
    (performSearchResults stateW).Perm
      ((filterStage stateW.tools stateW.state).filter (fun tool =>
        0 < calculateMatchScore stateW.searchIndex tool
          ((splitWs stateW.state.query).filter (fun w => 0 < w.length)))) ∧
    (performSearchResults stateW).Pairwise (fun t u =>
      calculateMatchScore stateW.searchIndex u
          ((splitWs stateW.state.query).filter (fun w => 0 < w.length)) ≤
        calculateMatchScore stateW.searchIndex t
          ((splitWs stateW.state.query).filter (fun w => 0 < w.length))) :=
  performSearch_query_spec stateW (by decide)

/-! ## C3: levenshteinDistance

First the bridge from the Wagner-Fischer matrix implementation to the
reference recursion `ed`, then the characterization of `ed` as the least
number of single-character edits. -/

theorem ed_nil_left (ys : Str) : ed [] ys = ys.length := by
  rw [ed]

theorem ed_cons_nil (x : Char) (xs : Str) : ed (x :: xs) [] = xs.length + 1 := by
  rw [ed]

theorem ed_cons_cons (x y : Char) (xs ys : Str) :
    ed (x :: xs) (y :: ys) =
      if x = y then ed xs ys
      else 1 + Nat.min (ed xs ys) (Nat.min (ed (x :: xs) ys) (ed xs (y :: ys))) := by
  rw [ed]

theorem ed_nil_right (xs : Str) : ed xs [] = xs.length := by
  cases xs with
  | nil => rw [ed_nil_left]
  | cons x t => rw [ed_cons_nil, List.length_cons]

theorem ed_self (l : Str) : ed l l = 0 := by
  induction l with
  | nil => rw [ed_nil_left, List.length_nil]
  | cons x t ih => rw [ed_cons_cons, if_pos rfl, ih]

theorem rowForAux_nil_arg (r acc : Str) : rowForAux r acc [] = [ed r acc] := by
  rw [rowForAux, List.scanl_nil, List.map_cons, List.map_nil]

theorem rowForAux_cons_arg (r acc : Str) (ac : Char) (atl : Str) :
    rowForAux r acc (ac :: atl) = ed r acc :: rowForAux r (ac :: acc) atl := by
  rw [rowForAux, rowForAux, List.scanl_cons, List.singleton_append, List.map_cons]

theorem rowForAux_head_cons (r acc a : Str) :
    rowForAux r acc a = ed r acc :: (rowForAux r acc a).tail := by
  cases a with
  | nil => rw [rowForAux_nil_arg]; rfl
  | cons ac atl => rw [rowForAux_cons_arg]; rfl

theorem rowForAux_headD (r acc a : Str) (d : Nat) :
    (rowForAux r acc a).headD d = ed r acc := by
  cases a with
  | nil => rw [rowForAux_nil_arg]; rfl
  | cons ac atl => rw [rowForAux_cons_arg]; rfl

theorem levRowAux_spec (bc : Char) (r : Str) :
    ∀ (a acc : Str),
      levRowAux bc (ed (bc :: r) acc) a (rowForAux r acc a) =
        (rowForAux (bc :: r) acc a).tail := by
  intro a
  induction a with
  | nil =>
    intro acc
    rw [rowForAux_nil_arg, rowForAux_nil_arg, levRowAux]
    rfl
  | cons ac atl ih =>
    intro acc
    rw [rowForAux_cons_arg r acc ac atl, rowForAux_cons_arg (bc :: r) acc ac atl]
    simp only [levRowAux, rowForAux_headD]
    have hcell : (if bc = ac then ed r acc
        else Nat.min (ed r acc + 1)
          (Nat.min (ed (bc :: r) acc + 1) (ed r (ac :: acc) + 1)))
        = ed (bc :: r) (ac :: acc) := by
      rw [ed_cons_cons]
      by_cases h : bc = ac
      · rw [if_pos h, if_pos h]
      · rw [if_neg h, if_neg h]
        simp only [Nat.min_def]
        split_ifs <;> omega
    rw [hcell, ih (ac :: acc)]
    exact (rowForAux_head_cons (bc :: r) (ac :: acc) atl).symm

theorem levRows_spec (a : Str) :
    ∀ (bs r : Str),
      levRows a bs (r.length + 1) (rowForAux r [] a) =
        rowForAux (bs.reverse ++ r) [] a := by
  intro bs
  induction bs with
  | nil =>
    intro r
    rw [levRows, List.reverse_nil, List.nil_append]
  | cons bc btl ih =>
    intro r
    rw [levRows]
    have h1 : r.length + 1 = ed (bc :: r) [] := by
      rw [ed_nil_right, List.length_cons]
    rw [h1, levRowAux_spec bc r a [], ← rowForAux_head_cons]
    have h2 : ed (bc :: r) [] + 1 = (bc :: r).length + 1 := by
      rw [ed_nil_right]
    rw [h2, ih (bc :: r), List.reverse_cons, List.append_assoc, List.singleton_append]

theorem rowForAux_nil_r : ∀ (a acc : Str),
    rowForAux [] acc a = List.range' acc.length (a.length + 1) := by
  intro a
  induction a with
  | nil =>
    intro acc
    rw [rowForAux_nil_arg, ed_nil_left, List.length_nil, List.range'_one]
  | cons ac atl ih =>
    intro acc
    rw [rowForAux_cons_arg, ed_nil_left, ih (ac :: acc), List.length_cons,
      List.length_cons]
    conv_rhs => rw [List.range'_succ]

theorem rowForAux_getLastD (r : Str) : ∀ (a acc : Str) (d : Nat),
    (rowForAux r acc a).getLastD d = ed r (a.reverse ++ acc) := by
  intro a
  induction a with
  | nil =>
    intro acc d
    rw [rowForAux_nil_arg, List.reverse_nil, List.nil_append]
    rfl
  | cons ac atl ih =>
    intro acc d
    rw [rowForAux_cons_arg, List.getLastD_cons, ih (ac :: acc),
      List.reverse_cons, List.append_assoc, List.singleton_append]

theorem lev_eq_ed (a b : Str) : levenshteinDistance a b = ed b.reverse a.reverse := by
  rw [levenshteinDistance]
  by_cases ha : a.length = 0
  · rw [if_pos ha]
    have ha' : a = [] := List.length_eq_zero.mp ha
    subst ha'
    rw [List.reverse_nil, ed_nil_right, List.length_reverse]
  · rw [if_neg ha]
    by_cases hb : b.length = 0
    · rw [if_pos hb]
      have hb' : b = [] := List.length_eq_zero.mp hb
      subst hb'
      rw [List.reverse_nil, ed_nil_left, List.length_reverse]
    · rw [if_neg hb]
      have hrange : List.range (a.length + 1) = rowForAux [] [] a := by
        rw [rowForAux_nil_r a [], List.length_nil, List.range_eq_range']
      rw [hrange]
      have h := levRows_spec a b []
      rw [List.length_nil, List.append_nil, Nat.zero_add] at h
      rw [h, rowForAux_getLastD, List.append_nil]

theorem nat_min3_cases (e1 e2 e3 : Nat) :
    Nat.min e1 (Nat.min e2 e3) = e1 ∨ Nat.min e1 (Nat.min e2 e3) = e2 ∨
      Nat.min e1 (Nat.min e2 e3) = e3 := by
  simp only [Nat.min_def]
  split_ifs <;> simp

theorem nat_min3_le (e1 e2 e3 : Nat) :
    Nat.min e1 (Nat.min e2 e3) ≤ e1 ∧ Nat.min e1 (Nat.min e2 e3) ≤ e2 ∧
      Nat.min e1 (Nat.min e2 e3) ≤ e3 :=
  ⟨Nat.min_le_left _ _,
   le_trans (Nat.min_le_right _ _) (Nat.min_le_left _ _),
   le_trans (Nat.min_le_right _ _) (Nat.min_le_right _ _)⟩

theorem editStep_symm {a b : Str} (h : EditStep a b) : EditStep b a := by
  induction h with
  | insert_head c l => exact EditStep.delete_head c l
  | delete_head c l => exact EditStep.insert_head c l
  | subst_head c c' l => exact EditStep.subst_head c' c l
  | cons c _ ih => exact EditStep.cons c ih

theorem canTransform_cons {n : Nat} {a b : Str} (c : Char) (h : CanTransform n a b) :
    CanTransform n (c :: a) (c :: b) := by
  induction h with
  | refl l => exact CanTransform.refl _
  | step e _ ih => exact CanTransform.step (EditStep.cons c e) ih

theorem canTransform_snoc {n : Nat} {a b d : Str} (h : CanTransform n a b)
    (e : EditStep b d) : CanTransform (n + 1) a d := by
  revert e
  induction h with
  | refl l => exact fun e => CanTransform.step e (CanTransform.refl _)
  | step e' _ ih => exact fun e => CanTransform.step e' (ih e)

theorem canTransform_symm {n : Nat} {a b : Str} (h : CanTransform n a b) :
    CanTransform n b a := by
  induction h with
  | refl l => exact CanTransform.refl _
  | step e _ ih => exact canTransform_snoc ih (editStep_symm e)

theorem editStep_snoc_insert (c : Char) (l : Str) : EditStep l (l ++ [c]) := by
  induction l with
  | nil => exact EditStep.insert_head c []
  | cons x t ih => exact EditStep.cons x ih

theorem editStep_snoc_delete (c : Char) (l : Str) : EditStep (l ++ [c]) l := by
  induction l with
  | nil => exact EditStep.delete_head c []
  | cons x t ih => exact EditStep.cons x ih

theorem editStep_snoc_subst (c c' : Char) (l : Str) :
    EditStep (l ++ [c]) (l ++ [c']) := by
  induction l with
  | nil => exact EditStep.subst_head c c' []
  | cons x t ih => exact EditStep.cons x ih

theorem editStep_snoc_cong {a b : Str} (c : Char) (h : EditStep a b) :
    EditStep (a ++ [c]) (b ++ [c]) := by
  induction h with
  | insert_head d l => exact EditStep.insert_head d (l ++ [c])
  | delete_head d l => exact EditStep.delete_head d (l ++ [c])
  | subst_head d d' l => exact EditStep.subst_head d d' (l ++ [c])
  | cons d _ ih => exact EditStep.cons d ih

theorem editStep_reverse {a b : Str} (h : EditStep a b) :
    EditStep a.reverse b.reverse := by
  induction h with
  | insert_head c l =>
    rw [List.reverse_cons]
    exact editStep_snoc_insert c l.reverse
  | delete_head c l =>
    rw [List.reverse_cons]
    exact editStep_snoc_delete c l.reverse
  | subst_head c c' l =>
    rw [List.reverse_cons, List.reverse_cons]
    exact editStep_snoc_subst c c' l.reverse
  | cons c _ ih =>
    rw [List.reverse_cons, List.reverse_cons]
    exact editStep_snoc_cong c ih

theorem canTransform_reverse {n : Nat} {a b : Str} (h : CanTransform n a b) :
    CanTransform n a.reverse b.reverse := by
  induction h with
  | refl l => exact CanTransform.refl _
  | step e _ ih => exact CanTransform.step (editStep_reverse e) ih

theorem canTransform_nil_left : ∀ ys : Str, CanTransform ys.length [] ys := by
  intro ys
  induction ys with
  | nil => exact CanTransform.refl []
  | cons y t ih =>
    exact CanTransform.step (EditStep.insert_head y []) (canTransform_cons y ih)

theorem canTransform_nil_right : ∀ xs : Str, CanTransform xs.length xs [] := by
  intro xs
  induction xs with
  | nil => exact CanTransform.refl []
  | cons x t ih => exact CanTransform.step (EditStep.delete_head x t) ih

theorem ed_canTransform : ∀ (N : Nat) (a b : Str), a.length + b.length ≤ N →
    CanTransform (ed a b) a b := by
  intro N
  induction N with
  | zero =>
    intro a b h
    have ha : a = [] := List.eq_nil_of_length_eq_zero (by omega)
    have hb : b = [] := List.eq_nil_of_length_eq_zero (by omega)
    subst ha
    subst hb
    rw [ed_nil_left, List.length_nil]
    exact CanTransform.refl []
  | succ N ih =>
    intro a b h
    cases a with
    | nil =>
      rw [ed_nil_left]
      exact canTransform_nil_left b
    | cons x xs =>
      cases b with
      | nil =>
        rw [ed_cons_nil]
        exact canTransform_nil_right (x :: xs)
      | cons y ys =>
        rw [ed_cons_cons]
        by_cases hxy : x = y
        · rw [if_pos hxy]
          subst hxy
          refine canTransform_cons x (ih xs ys ?_)
          simp only [List.length_cons] at h
          omega
        · rw [if_neg hxy]
          have h1 : xs.length + ys.length ≤ N := by
            simp only [List.length_cons] at h
            omega
          have h2 : (x :: xs).length + ys.length ≤ N := by
            simp only [List.length_cons] at h ⊢
            omega
          have h3 : xs.length + (y :: ys).length ≤ N := by
            simp only [List.length_cons] at h ⊢
            omega
          rcases nat_min3_cases (ed xs ys) (ed (x :: xs) ys) (ed xs (y :: ys))
            with hm | hm | hm <;> rw [hm, Nat.add_comm]
          · exact CanTransform.step (EditStep.subst_head x y xs)
              (canTransform_cons y (ih xs ys h1))
          · exact CanTransform.step (EditStep.insert_head y (x :: xs))
              (canTransform_cons y (ih (x :: xs) ys h2))
          · exact CanTransform.step (EditStep.delete_head x xs) (ih xs (y :: ys) h3)

theorem ed_one_char_bounds : ∀ (N : Nat) (xs ys : Str), xs.length + ys.length ≤ N →
    (∀ x, ed (x :: xs) ys ≤ 1 + ed xs ys) ∧
    (∀ y, ed xs (y :: ys) ≤ 1 + ed xs ys) ∧
    (∀ y, ed xs ys ≤ 1 + ed xs (y :: ys)) ∧
    (∀ x, ed xs ys ≤ 1 + ed (x :: xs) ys) := by
  intro N
  induction N with
  | zero =>
    intro xs ys h
    have hx : xs = [] := List.eq_nil_of_length_eq_zero (by omega)
    have hy : ys = [] := List.eq_nil_of_length_eq_zero (by omega)
    subst hx
    subst hy
    refine ⟨fun x => ?_, fun y => ?_, fun y => ?_, fun x => ?_⟩ <;>
      simp [ed_nil_left, ed_cons_nil, ed_nil_right]
  | succ N ih =>
    intro xs ys h
    refine ⟨fun x => ?_, fun y => ?_, fun y => ?_, fun x => ?_⟩
    · cases ys with
      | nil =>
        rw [ed_cons_nil, ed_nil_right]
        omega
      | cons y ys' =>
        rw [ed_cons_cons]
        by_cases hxy : x = y
        · rw [if_pos hxy]
          exact (ih xs ys' (by simp only [List.length_cons] at h; omega)).2.2.1 y
        · rw [if_neg hxy]
          have hm := nat_min3_le (ed xs ys') (ed (x :: xs) ys') (ed xs (y :: ys'))
          omega
    · cases xs with
      | nil =>
        rw [ed_nil_left, ed_nil_left, List.length_cons]
        omega
      | cons x xs' =>
        rw [ed_cons_cons]
        by_cases hxy : x = y
        · rw [if_pos hxy]
          subst hxy
          exact (ih xs' ys (by simp only [List.length_cons] at h; omega)).2.2.2 x
        · rw [if_neg hxy]
          have hm := nat_min3_le (ed xs' ys) (ed (x :: xs') ys) (ed xs' (y :: ys))
          omega
    · cases xs with
      | nil =>
        rw [ed_nil_left, ed_nil_left, List.length_cons]
        omega
      | cons x xs' =>
        rw [ed_cons_cons]
        by_cases hxy : x = y
        · rw [if_pos hxy]
          exact (ih xs' ys (by simp only [List.length_cons] at h; omega)).1 x
        · rw [if_neg hxy]
          have hb1 : ed (x :: xs') ys ≤ 1 + ed xs' ys :=
            (ih xs' ys (by simp only [List.length_cons] at h; omega)).1 x
          have hb3 : ed xs' ys ≤ 1 + ed xs' (y :: ys) :=
            (ih xs' ys (by simp only [List.length_cons] at h; omega)).2.2.1 y
          rcases nat_min3_cases (ed xs' ys) (ed (x :: xs') ys) (ed xs' (y :: ys))
            with hm | hm | hm <;> omega
    · cases ys with
      | nil =>
        rw [ed_nil_right, ed_cons_nil]
        omega
      | cons y ys' =>
        rw [ed_cons_cons]
        by_cases hxy : x = y
        · rw [if_pos hxy]
          exact (ih xs ys' (by simp only [List.length_cons] at h; omega)).2.1 y
        · rw [if_neg hxy]
          have hb2 : ed xs (y :: ys') ≤ 1 + ed xs ys' :=
            (ih xs ys' (by simp only [List.length_cons] at h; omega)).2.1 y
          have hb4 : ed xs ys' ≤ 1 + ed (x :: xs) ys' :=
            (ih xs ys' (by simp only [List.length_cons] at h; omega)).2.2.2 x
          rcases nat_min3_cases (ed xs ys') (ed (x :: xs) ys') (ed xs (y :: ys'))
            with hm | hm | hm <;> omega

theorem ed_cons_left_le (x : Char) (xs ys : Str) : ed (x :: xs) ys ≤ 1 + ed xs ys :=
  (ed_one_char_bounds (xs.length + ys.length) xs ys le_rfl).1 x

theorem ed_cons_right_le (y : Char) (xs ys : Str) : ed xs (y :: ys) ≤ 1 + ed xs ys :=
  (ed_one_char_bounds (xs.length + ys.length) xs ys le_rfl).2.1 y

theorem ed_le_cons_right (y : Char) (xs ys : Str) : ed xs ys ≤ 1 + ed xs (y :: ys) :=
  (ed_one_char_bounds (xs.length + ys.length) xs ys le_rfl).2.2.1 y

theorem ed_le_cons_left (x : Char) (xs ys : Str) : ed xs ys ≤ 1 + ed (x :: xs) ys :=
  (ed_one_char_bounds (xs.length + ys.length) xs ys le_rfl).2.2.2 x

theorem ed_subst_head_le : ∀ (c l : Str) (ch ch' : Char),
    ed (ch :: l) c ≤ 1 + ed (ch' :: l) c := by
  intro c
  induction c with
  | nil =>
    intro l ch ch'
    rw [ed_cons_nil, ed_cons_nil]
    omega
  | cons y c' ih =>
    intro l ch ch'
    rw [ed_cons_cons, ed_cons_cons]
    by_cases h1 : ch = y <;> by_cases h2 : ch' = y
    · rw [if_pos h1, if_pos h2]
      omega
    · rw [if_pos h1, if_neg h2]
      have f1 := ed_le_cons_left ch' l c'
      have f2 := ed_le_cons_right y l c'
      rcases nat_min3_cases (ed l c') (ed (ch' :: l) c') (ed l (y :: c'))
        with hm | hm | hm <;> omega
    · rw [if_neg h1, if_pos h2]
      have hm := nat_min3_le (ed l c') (ed (ch :: l) c') (ed l (y :: c'))
      omega
    · rw [if_neg h1, if_neg h2]
      have hm := nat_min3_le (ed l c') (ed (ch :: l) c') (ed l (y :: c'))
      have hIH := ih l ch ch'
      rcases nat_min3_cases (ed l c') (ed (ch' :: l) c') (ed l (y :: c'))
        with hm' | hm' | hm' <;> omega

theorem editStep_length {a b : Str} (h : EditStep a b) :
    a.length ≤ b.length + 1 ∧ b.length ≤ a.length + 1 := by
  induction h with
  | insert_head c l =>
    simp only [List.length_cons]
    omega
  | delete_head c l =>
    simp only [List.length_cons]
    omega
  | subst_head c c' l =>
    simp only [List.length_cons]
    omega
  | cons c _ ih =>
    simp only [List.length_cons]
    omega

theorem editStep_ed_aux {l l' : Str} (hstep : ∀ c : Str, ed l c ≤ 1 + ed l' c)
    (hlen : l.length ≤ l'.length + 1) :
    ∀ (c : Str) (ch : Char), ed (ch :: l) c ≤ 1 + ed (ch :: l') c := by
  intro c
  induction c with
  | nil =>
    intro ch
    rw [ed_cons_nil, ed_cons_nil]
    omega
  | cons y c' ih =>
    intro ch
    rw [ed_cons_cons, ed_cons_cons]
    by_cases h : ch = y
    · rw [if_pos h, if_pos h]
      exact hstep c'
    · rw [if_neg h, if_neg h]
      have f1 := hstep c'
      have f2 := ih ch
      have f3 := hstep (y :: c')
      have hm := nat_min3_le (ed l c') (ed (ch :: l) c') (ed l (y :: c'))
      rcases nat_min3_cases (ed l' c') (ed (ch :: l') c') (ed l' (y :: c'))
        with hm' | hm' | hm' <;> omega

theorem editStep_ed {a b : Str} (h : EditStep a b) : ∀ c : Str, ed a c ≤ 1 + ed b c := by
  induction h with
  | insert_head ch l => exact fun c => ed_le_cons_left ch l c
  | delete_head ch l => exact fun c => ed_cons_left_le ch l c
  | subst_head ch ch' l => exact fun c => ed_subst_head_le c l ch ch'
  | cons ch h ih => exact fun c => editStep_ed_aux ih (editStep_length h).1 c ch

theorem ed_le_canTransform {n : Nat} {a b : Str} (h : CanTransform n a b) :
    ed a b ≤ n := by
  induction h with
  | refl l =>
    rw [ed_self]
  | step e _ ih =>
    exact le_trans (editStep_ed e _) (by omega)

theorem ed_comm (a b : Str) : ed a b = ed b a :=
  Nat.le_antisymm
    (ed_le_canTransform (canTransform_symm (ed_canTransform (b.length + a.length) b a le_rfl)))
    (ed_le_canTransform (canTransform_symm (ed_canTransform (a.length + b.length) a b le_rfl)))

theorem ed_reverse (a b : Str) : ed a.reverse b.reverse = ed a b := by
  refine Nat.le_antisymm
    (ed_le_canTransform (canTransform_reverse (ed_canTransform (a.length + b.length) a b le_rfl)))
    ?_
  have h := ed_le_canTransform (canTransform_reverse
    (ed_canTransform (a.reverse.length + b.reverse.length) a.reverse b.reverse le_rfl))
  rwa [List.reverse_reverse, List.reverse_reverse] at h

theorem ed_eq_zero_iff : ∀ (a b : Str), ed a b = 0 ↔ a = b := by
  intro a
  induction a with
  | nil =>
    intro b
    rw [ed_nil_left]
    constructor
    · intro h
      exact (List.eq_nil_of_length_eq_zero h).symm
    · rintro rfl
      rfl
  | cons x xs ih =>
    intro b
    cases b with
    | nil =>
      rw [ed_cons_nil]
      constructor
      · intro h
        omega
      · intro h
        cases h
    | cons y ys =>
      rw [ed_cons_cons]
      by_cases h : x = y
      · rw [if_pos h]
        subst h
        rw [ih ys]
        constructor
        · rintro rfl
          rfl
        · intro h'
          cases h'
          rfl
      · rw [if_neg h]
        constructor
        · intro h'
          omega
        · intro h'
          cases h'
          exact absurd rfl h

/-- C3: `levenshteinDistance` computes the standard Levenshtein edit
distance: it is the least `n` such that `a` can be transformed into `b` by
`n` single-character insertions, deletions and substitutions; consequently
it is zero exactly on equal strings, and it is symmetric. -/
theorem levenshteinDistance_spec (a b : Str) :
    CanTransform (levenshteinDistance a b) a b ∧
    (∀ n, CanTransform n a b → levenshteinDistance a b ≤ n) ∧
    (levenshteinDistance a b = 0 ↔ a = b) ∧
    levenshteinDistance a b = levenshteinDistance b a := by
  have hed : levenshteinDistance a b = ed a b := by
    rw [lev_eq_ed, ed_comm, ed_reverse]
  refine ⟨?_, ?_, ?_, ?_⟩
  · rw [hed]
    exact ed_canTransform (a.length + b.length) a b le_rfl
  · intro n hn
    rw [hed]
    exact ed_le_canTransform hn
  · rw [hed]
    exact ed_eq_zero_iff a b
  · rw [hed, lev_eq_ed b a, ed_reverse]

/-- Witness for C3 at the strings "ab" and "b". -/
theorem levenshteinDistance_spec_witness :
    CanTransform (levenshteinDistance ['a', 'b'] ['b']) ['a', 'b'] ['b'] ∧
      levenshteinDistance ['a', 'b'] ['b'] = 1 :=
  ⟨(levenshteinDistance_spec ['a', 'b'] ['b']).1, by decide⟩
